import Mathlib

/-!
# Verification of the `wdgrep` core (Count-Count/wikidumptools)

Shallow embedding of the parallel dump-search engine found in
`src/bin/wdgrep/lib.rs`, together with proofs and refutations of the frozen
claims about it.

Conventions:
* Rust byte strings (`&[u8]`, `Vec<u8>`, `String` contents) are `List Nat`
  (each element a byte value).
* `u64`/`usize` arithmetic is carried out in `Nat`; the quantities involved
  (file offsets and lengths) stay far below `2^64`, and every place where the
  Rust code could overflow or divide by zero is noted at the definition.
* Fallible operations return `Option`/sum types; a Rust `panic!` (including an
  out-of-bounds slice index) is a distinguished result constructor.
-/

namespace Wdgrep

/-! ## Work partitioner (`search_dump`, lib.rs 349-365, and `ceiling_div`, 194-196)

`ceiling_div(x, y) = (x + y - 1) / y` on `u64`.  In Rust, `y = 0` underflows /
divides by zero (a panic); `Nat` saturates instead, so theorems only use
`ceiling_div` with `y ≥ 1`, except where a claim is specifically about the
unclamped value `parts 0 = 0` (there `x + y - 1 = 499999...` no: `0 + c - 1`
with the constant `c = 500 MiB ≥ 1` does not underflow, so `Nat` and `u64`
agree on that input). -/
def ceiling_div (x y : Nat) : Nat :=
  (x + y - 1) / y

/-- `parts` from lib.rs:350: `ceiling_div(len, 500 * 1024 * 1024)`. -/
def parts (len : Nat) : Nat :=
  ceiling_div len (500 * 1024 * 1024)

/-- `slice_size` from lib.rs:351: `ceiling_div(len, parts)`.  For `len = 0`
the Rust computation panics (`ceiling_div(0, 0)`); see `parts`. -/
def slice_size (len : Nat) : Nat :=
  ceiling_div len (parts len)

/-- The byte ranges handed to the workers (lib.rs:353-365): worker `i` of
`0..parts` searches `[i * slice_size, (i+1) * slice_size)`. -/
def searchRanges (len : Nat) : List (Nat × Nat) :=
  (List.range (parts len)).map (fun i => (i * slice_size len, (i + 1) * slice_size len))

/-- The set of pages a worker for the range `[start, e)` processes, given the
absolute file offsets of the `<page>` opening tags, in file order
(lib.rs 418-425): the worker seeks to `start`, so only tags whose first byte
lies at or after `start` are recognised; it scans pages in order and stops at
the first page whose tag offset is `≥ e` (`page_tag_start_pos >= end`);
every earlier page it processes in full, even past `e`. -/
def workerPages (pages : List Nat) (start e : Nat) : List Nat :=
  (pages.filter (fun o => decide (start ≤ o))).takeWhile (fun o => decide (o < e))

/-! ### Arithmetic helper lemmas -/

theorem le_ceiling_div_mul (L y : Nat) (hy : 1 ≤ y) : L ≤ ceiling_div L y * y := by
  rcases Nat.eq_zero_or_pos L with hL | hL
  · simp [hL]
  · unfold ceiling_div
    have h1 : L + y - 1 = (L - 1) + y := by omega
    rw [h1, Nat.add_div_right _ hy]
    have h2 := Nat.div_add_mod (L - 1) y
    have h3 : (L - 1) % y < y := Nat.mod_lt _ hy
    rw [Nat.add_mul, Nat.one_mul, Nat.mul_comm]
    generalize y * ((L - 1) / y) = t at h2
    omega

theorem ceiling_div_le (L p M : Nat) (hp : 1 ≤ p) (h : L ≤ p * M) :
    ceiling_div L p ≤ M := by
  unfold ceiling_div
  have h1 : (L + p - 1) / p < M + 1 := by
    rw [Nat.div_lt_iff_lt_mul hp]
    have : (M + 1) * p = p * M + p := by ring
    omega
  omega

theorem ceiling_div_pos (L y : Nat) (hL : 1 ≤ L) (hy : 1 ≤ y) :
    1 ≤ ceiling_div L y := by
  unfold ceiling_div
  have h1 : 1 ≤ (L + y - 1) / y ↔ 1 * y ≤ L + y - 1 := Nat.le_div_iff_mul_le hy
  omega

theorem parts_pos (L : Nat) (hL : 1 ≤ L) : 1 ≤ parts L :=
  ceiling_div_pos L _ hL (by norm_num)

theorem slice_size_pos (L : Nat) (hL : 1 ≤ L) : 1 ≤ slice_size L :=
  ceiling_div_pos L _ hL (parts_pos L hL)

theorem le_parts_mul_slice (L : Nat) (hL : 1 ≤ L) : L ≤ parts L * slice_size L := by
  have h := le_ceiling_div_mul L (parts L) (parts_pos L hL)
  unfold slice_size
  rw [Nat.mul_comm]
  exact h

theorem slice_size_le (L : Nat) (hL : 1 ≤ L) : slice_size L ≤ 500 * 1024 * 1024 := by
  apply ceiling_div_le L (parts L) _ (parts_pos L hL)
  have h := le_ceiling_div_mul L (500 * 1024 * 1024) (by norm_num)
  unfold parts
  omega

/-- Membership in a `takeWhile (· < e)` of a `≤`-sorted list is plain interval
membership. -/
theorem mem_takeWhile_lt_iff (l : List Nat) (e o : Nat) (hs : l.Pairwise (· ≤ ·)) :
    o ∈ l.takeWhile (fun x => decide (x < e)) ↔ o ∈ l ∧ o < e := by
  induction l with
  | nil => simp
  | cons a t ih =>
    rcases List.pairwise_cons.mp hs with ⟨ha, ht⟩
    by_cases hae : a < e
    · rw [List.takeWhile_cons_of_pos (by simpa using hae)]
      simp only [List.mem_cons, ih ht]
      constructor
      · rintro (rfl | ⟨h1, h2⟩)
        · exact ⟨Or.inl rfl, hae⟩
        · exact ⟨Or.inr h1, h2⟩
      · rintro ⟨rfl | h1, h2⟩
        · exact Or.inl rfl
        · exact Or.inr ⟨h1, h2⟩
    · rw [List.takeWhile_cons_of_neg (by simpa using hae)]
      simp only [List.not_mem_nil, false_iff, not_and, List.mem_cons]
      rintro (rfl | h1)
      · omega
      · have := ha o h1
        omega

/-- Characterisation of `workerPages` on a sorted offset list. -/
theorem mem_workerPages_iff (pages : List Nat) (start e o : Nat)
    (hs : pages.Pairwise (· ≤ ·)) :
    o ∈ workerPages pages start e ↔ o ∈ pages ∧ start ≤ o ∧ o < e := by
  unfold workerPages
  rw [mem_takeWhile_lt_iff _ _ _ (hs.filter _)]
  simp only [List.mem_filter, decide_eq_true_eq]
  tauto

/-! ### Claims C1 and C4 -/

/-- **C1.** For every plain dump file of length `L` and the range partition
`searchRanges L` produced for it, each `<page>` element (identified by the
absolute offset of its opening tag, with the offsets listed in file order) is
processed by exactly one worker: a worker stops at the first page whose
opening tag starts at an offset `≥` its range end, and otherwise processes the
page fully even past the range end (this tie-break is `workerPages`). -/
theorem page_processed_by_exactly_one_worker
    (pages : List Nat) (L o : Nat) (hs : pages.Pairwise (· ≤ ·))
    (ho : o ∈ pages) (hoL : o < L) :
    ∃! i, i < parts L ∧
      o ∈ workerPages pages (i * slice_size L) ((i + 1) * slice_size L) := by
  have hL : 1 ≤ L := by omega
  have hsl : 1 ≤ slice_size L := slice_size_pos L hL
  have hcov := le_parts_mul_slice L hL
  have hdm := Nat.div_add_mod o (slice_size L)
  have hm : o % slice_size L < slice_size L := Nat.mod_lt _ hsl
  refine ⟨o / slice_size L, ⟨?_, ?_⟩, ?_⟩
  · rw [Nat.div_lt_iff_lt_mul hsl]
    omega
  · rw [mem_workerPages_iff _ _ _ _ hs]
    refine ⟨ho, Nat.div_mul_le_self o _, ?_⟩
    rw [Nat.add_mul, Nat.one_mul, Nat.mul_comm]
    generalize slice_size L * (o / slice_size L) = t at hdm
    omega
  · rintro j ⟨_, hmem⟩
    rw [mem_workerPages_iff _ _ _ _ hs] at hmem
    exact (Nat.div_eq_of_lt_le hmem.2.1 hmem.2.2).symm

/-- Witness for `page_processed_by_exactly_one_worker` at a concrete input. -/
theorem page_processed_by_exactly_one_worker_witness :
    ([0] : List Nat).Pairwise (· ≤ ·) ∧ 0 ∈ ([0] : List Nat) ∧ 0 < 1 ∧
    ∃! i, i < parts 1 ∧
      0 ∈ workerPages [0] (i * slice_size 1) ((i + 1) * slice_size 1) :=
  ⟨by simp, by simp, by norm_num,
    page_processed_by_exactly_one_worker [0] 1 0 (by simp) (by simp) (by norm_num)⟩

/-- **C4, counterexample.** The claim says `parts` is "clamped to at least 1",
but for an empty file (`L = 0`) the code computes
`ceiling_div(0, 500 MiB) = 0` — there is no clamping (and the subsequent
`ceiling_div(0, 0)` in Rust panics). -/
theorem parts_not_clamped_at_zero : parts 0 = 0 ∧ ¬ 1 ≤ parts 0 := by
  constructor
  · rfl
  · intro h
    simp [parts, ceiling_div] at h

/-- **C4, amended.** For every plain seekable file of length `L ≥ 1`,
`search_dump` partitions it into `parts L = ⌈L / 500 MiB⌉ ≥ 1` ranges with
`slice_size L = ⌈L / parts L⌉`; worker `i` receives
`[i * slice_size, (i+1) * slice_size)`, every range is at most 500 MiB long,
and the union of the ranges covers `[0, L)`.  (At `L = 0` the code computes
0 parts and panics; the "clamped to at least 1" part of the claim is false.) -/
theorem searchRanges_partition (L : Nat) (hL : 1 ≤ L) :
    1 ≤ parts L ∧
    (∀ r ∈ searchRanges L, r.2 - r.1 ≤ 500 * 1024 * 1024) ∧
    (∀ o, o < L → ∃ i, i < parts L ∧
      i * slice_size L ≤ o ∧ o < (i + 1) * slice_size L) := by
  have hsl : 1 ≤ slice_size L := slice_size_pos L hL
  have hbound := slice_size_le L hL
  refine ⟨parts_pos L hL, ?_, ?_⟩
  · intro r hr
    simp only [searchRanges, List.mem_map, List.mem_range] at hr
    obtain ⟨i, -, rfl⟩ := hr
    simp only [Nat.add_mul, Nat.one_mul]
    omega
  · intro o hoL
    have hcov := le_parts_mul_slice L hL
    have hdm := Nat.div_add_mod o (slice_size L)
    have hm : o % slice_size L < slice_size L := Nat.mod_lt _ hsl
    refine ⟨o / slice_size L, ?_, Nat.div_mul_le_self o _, ?_⟩
    · rw [Nat.div_lt_iff_lt_mul hsl]
      omega
    · rw [Nat.add_mul, Nat.one_mul, Nat.mul_comm]
      generalize slice_size L * (o / slice_size L) = t at hdm
      omega

/-- Witness for `searchRanges_partition` at `L = 1`. -/
theorem searchRanges_partition_witness :
    1 ≤ 1 ∧
    (1 ≤ parts 1 ∧
     (∀ r ∈ searchRanges 1, r.2 - r.1 ≤ 500 * 1024 * 1024) ∧
     (∀ o, o < 1 → ∃ i, i < parts 1 ∧
       i * slice_size 1 ≤ o ∧ o < (i + 1) * slice_size 1)) :=
  ⟨le_refl 1, searchRanges_partition 1 (le_refl 1)⟩

/-! ## Byte-level helpers

`memchr`/`memrchr` from the `memchr` crate (first / last index of a byte), and
UTF-8 validation as performed by `simdutf8::basic::from_utf8` (plain RFC 3629
well-formedness; `from_utf8` returns the same bytes on success, so the model
keeps the bytes and only records validity). -/

def memchr (b : Nat) : List Nat → Option Nat
  | [] => none
  | x :: xs => if x = b then some 0 else (memchr b xs).map (· + 1)

def memrchr (b : Nat) (l : List Nat) : Option Nat :=
  match memchr b l.reverse with
  | some i => some (l.length - 1 - i)
  | none => none

def utf8ContByte (b : Nat) : Bool :=
  decide (0x80 ≤ b) && decide (b ≤ 0xBF)

def utf8Valid : List Nat → Bool
  | [] => true
  | b :: rest =>
    if b ≤ 0x7F then utf8Valid rest
    else
      match rest with
      | [] => false
      | c1 :: rest1 =>
        if 0xC2 ≤ b ∧ b ≤ 0xDF then utf8ContByte c1 && utf8Valid rest1
        else
          match rest1 with
          | [] => false
          | c2 :: rest2 =>
            if b = 0xE0 then
              (decide (0xA0 ≤ c1) && decide (c1 ≤ 0xBF)) && utf8ContByte c2 && utf8Valid rest2
            else if (0xE1 ≤ b ∧ b ≤ 0xEC) ∨ b = 0xEE ∨ b = 0xEF then
              utf8ContByte c1 && utf8ContByte c2 && utf8Valid rest2
            else if b = 0xED then
              (decide (0x80 ≤ c1) && decide (c1 ≤ 0x9F)) && utf8ContByte c2 && utf8Valid rest2
            else
              match rest2 with
              | [] => false
              | c3 :: rest3 =>
                if b = 0xF0 then
                  (decide (0x90 ≤ c1) && decide (c1 ≤ 0xBF)) && utf8ContByte c2 &&
                    utf8ContByte c3 && utf8Valid rest3
                else if 0xF1 ≤ b ∧ b ≤ 0xF3 then
                  utf8ContByte c1 && utf8ContByte c2 && utf8ContByte c3 && utf8Valid rest3
                else if b = 0xF4 then
                  (decide (0x80 ≤ c1) && decide (c1 ≤ 0x8F)) && utf8ContByte c2 &&
                    utf8ContByte c3 && utf8Valid rest3
                else false

/-- Rust slice `&text[a..b]`: defined when `a ≤ b ≤ text.length`, otherwise the
indexing panics (`none`). -/
def sliceChecked (text : List Nat) (a b : Nat) : Option (List Nat) :=
  if a ≤ b ∧ b ≤ text.length then some ((text.take b).drop a) else none

/-! ## Match formatter (`find_in_text`, lib.rs 492-564)

Output is modelled as a list of chunks: color changes (`set_color`), resets to
plain (`set_plain`), and byte writes.  `writeln!` is a write of the bytes
followed by a newline byte.  The compiled regex is abstracted by the list of
matches its `find_iter` reports, each a half-open byte interval.  A Rust
`panic!` — the explicit `"Memchr/Memrchr inconsistency"` branch or an
out-of-bounds slice — is `FRes.panicked`; an `Err` return (UTF-8 error from
`from_utf8` on a text slice) is `FRes.err`, in which case the caller discards
the buffer, so no chunks are carried. -/

inductive OColor where
  | cyan
  | yellow
  | red
deriving DecidableEq, Repr

inductive Out where
  | color (c : OColor)
  | reset
  | write (s : List Nat)
deriving DecidableEq, Repr

inductive FRes where
  | ok (out : List Out)
  | err
  | panicked
deriving DecidableEq, Repr

/-- Sequencing of two formatter steps: failures of the first step take
priority (the Rust code runs them in this order). -/
def fseq : FRes → FRes → FRes
  | .ok a, .ok b => .ok (a ++ b)
  | .ok _, .err => .err
  | .ok _, .panicked => .panicked
  | .err, _ => .err
  | .panicked, _ => .panicked

/-- The header printed once before the first match (lib.rs 497-506):
cyan title, plain `@`, yellow revision id with a newline, plain. -/
def headerOut (title rid : List Nat) : List Out :=
  [.color .cyan, .write title, .reset, .write [64], .color .yellow,
   .write (rid ++ [10]), .reset]

/-- lib.rs 536-540: if the (nonempty) match ends with `\n`, the effective end
is `m.end() - 1`; the array index `text[m.end() - 1]` is checked (`none` =
index out of bounds, a panic). -/
def actualMatchEnd (text : List Nat) (s e : Nat) : Option Nat :=
  if s < e then
    match text.get? (e - 1) with
    | some b => some (if b = 10 then e - 1 else e)
    | none => none
  else some e

/-- lib.rs 508-532: the text printed between the previous match (or the start)
and the current match starting at `s`. -/
def betweenChunks (text : List Nat) (lastEnd s : Nat) (firstMatch : Bool) : FRes :=
  match sliceChecked text lastEnd s with
  | none => .panicked
  | some between =>
    match memrchr 10 between with
    | none =>
      if utf8Valid between then .ok [.write between] else .err
    | some pos =>
      let finishPrev : FRes :=
        if firstMatch then .ok []
        else
          match memchr 10 between with
          | none => .panicked  -- panic!("Memchr/Memrchr inconsistency")
          | some pos2 =>
            match sliceChecked text lastEnd (lastEnd + pos2) with
            | none => .panicked
            | some line => if utf8Valid line then .ok [.write (line ++ [10])] else .err
      let preMatch : FRes :=
        match sliceChecked text (lastEnd + pos + 1) s with
        | none => .panicked
        | some preLine => if utf8Valid preLine then .ok [.write preLine] else .err
      fseq finishPrev preMatch

/-- The loop of `find_in_text` over the regex matches, with the state
variables `last_match_end` and `first_match`; the `[]` case is the epilogue
(lib.rs 549-562). -/
def findInTextLoop (text title rid : List Nat) :
    List (Nat × Nat) → Nat → Bool → FRes
  | [], _, true => .ok []
  | [], lastEnd, false =>
    match sliceChecked text lastEnd text.length with
    | none => .panicked
    | some tail =>
      match memchr 10 tail with
      | none =>
        if utf8Valid tail then .ok [.write (tail ++ [10]), .write [10]] else .err
      | some pos =>
        match sliceChecked text lastEnd (lastEnd + pos) with
        | none => .panicked
        | some line =>
          if utf8Valid line then .ok [.write (line ++ [10]), .write [10]] else .err
  | (s, e) :: ms, lastEnd, firstMatch =>
    let header : List Out := if firstMatch then headerOut title rid else []
    let between := betweenChunks text lastEnd s firstMatch
    match actualMatchEnd text s e with
    | none => fseq (.ok header) (fseq between .panicked)
    | some aEnd =>
      let redPart : FRes :=
        match sliceChecked text s aEnd with
        | none => .panicked
        | some mtext =>
          if utf8Valid mtext then .ok [.color .red, .write mtext, .reset] else .err
      fseq (.ok header)
        (fseq between (fseq redPart (findInTextLoop text title rid ms aEnd false)))

/-- `find_in_text(buffer, title, revision_id, text, re)` where `ms` is the
match list that `re.find_iter(text)` yields. -/
def findInText (title rid text : List Nat) (ms : List (Nat × Nat)) : FRes :=
  findInTextLoop text title rid ms 0 true

/-- The byte spans printed in red: every maximal chunk sequence
`set_color red; write s; set_plain` contributes `s`. -/
def redSpans : List Out → List (List Nat)
  | .color .red :: .write s :: .reset :: rest => s :: redSpans rest
  | _ :: rest => redSpans rest
  | [] => []

/-- The matches `find_iter` can report: in left-to-right non-overlapping
order, within the text.  `lo` is a lower bound for the next match start. -/
def chainMatches (len : Nat) : Nat → List (Nat × Nat) → Bool
  | _, [] => true
  | lo, (s, e) :: ms =>
    decide (lo ≤ s) && decide (s ≤ e) && decide (e ≤ len) && chainMatches len e ms

/-- The effective end of a match after the trailing-newline adjustment
(specification-side restatement of `actualMatchEnd` for in-bounds matches). -/
def aEndSpec (text : List Nat) (s e : Nat) : Nat :=
  if s < e ∧ text.getD (e - 1) 0 = 10 then e - 1 else e

/-- The bytes the formatter colors red for the match `(s, e)`. -/
def aEndSlice (text : List Nat) (m : Nat × Nat) : List Nat :=
  (text.take (aEndSpec text m.1 m.2)).drop m.1

def FRes.outChunks : FRes → List Out
  | .ok o => o
  | .err => []
  | .panicked => []

def FRes.isOk : FRes → Bool
  | .ok _ => true
  | _ => false

/-! ### Lemmas about the byte helpers -/

theorem memchr_lt_length {b : Nat} {l : List Nat} {i : Nat}
    (h : memchr b l = some i) : i < l.length := by
  induction l generalizing i with
  | nil => simp [memchr] at h
  | cons x xs ih =>
    rw [memchr] at h
    split at h
    · simp only [Option.some.injEq] at h
      subst h
      simp
    · cases hm : memchr b xs with
      | none => rw [hm] at h; simp at h
      | some j =>
        rw [hm] at h
        have hj := ih hm
        simp only [Option.map_some', Option.some.injEq] at h
        simp only [List.length_cons]
        omega

theorem memchr_isSome_of_mem {b : Nat} {l : List Nat} (h : b ∈ l) :
    (memchr b l).isSome := by
  induction l with
  | nil => simp at h
  | cons x xs ih =>
    rw [memchr]
    split
    · simp
    · rcases List.mem_cons.mp h with rfl | hxs
      · simp_all
      · cases hm : memchr b xs with
        | none => rw [hm] at ih; simp [ih hxs] at *
        | some j => simp

theorem mem_of_memchr {b : Nat} {l : List Nat} {i : Nat}
    (h : memchr b l = some i) : b ∈ l := by
  induction l generalizing i with
  | nil => simp [memchr] at h
  | cons x xs ih =>
    rw [memchr] at h
    split at h
    · simp_all
    · cases hm : memchr b xs with
      | none => rw [hm] at h; simp at h
      | some j => exact List.mem_cons_of_mem x (ih hm)

theorem memrchr_lt_length {b : Nat} {l : List Nat} {p : Nat}
    (h : memrchr b l = some p) : p < l.length := by
  unfold memrchr at h
  cases hm : memchr b l.reverse with
  | none => rw [hm] at h; simp at h
  | some i =>
    rw [hm] at h
    have hi : i < l.reverse.length := memchr_lt_length hm
    simp only [List.length_reverse] at hi
    simp only [Option.some.injEq] at h
    omega

theorem memchr_isSome_of_memrchr {b : Nat} {l : List Nat} {p : Nat}
    (h : memrchr b l = some p) : (memchr b l).isSome := by
  unfold memrchr at h
  cases hm : memchr b l.reverse with
  | none => rw [hm] at h; simp at h
  | some i =>
    exact memchr_isSome_of_mem (List.mem_reverse.mp (mem_of_memchr hm))

/-! ### Lemmas about `redSpans` and the match chain -/

@[simp] theorem redSpans_nil : redSpans [] = [] := rfl

@[simp] theorem redSpans_write (s : List Nat) (l : List Out) :
    redSpans (.write s :: l) = redSpans l := rfl

@[simp] theorem redSpans_reset (l : List Out) :
    redSpans (.reset :: l) = redSpans l := rfl

@[simp] theorem redSpans_cyan (l : List Out) :
    redSpans (.color .cyan :: l) = redSpans l := rfl

@[simp] theorem redSpans_yellow (l : List Out) :
    redSpans (.color .yellow :: l) = redSpans l := rfl

@[simp] theorem redSpans_triple (s : List Nat) (l : List Out) :
    redSpans (.color .red :: .write s :: .reset :: l) = s :: redSpans l := rfl

theorem redSpans_writes_append {cs : List Out} (l : List Out)
    (h : ∀ c ∈ cs, ∃ w, c = Out.write w) :
    redSpans (cs ++ l) = redSpans l := by
  induction cs with
  | nil => simp
  | cons c cs ih =>
    obtain ⟨w, rfl⟩ := h c (List.mem_cons_self c cs)
    rw [List.cons_append, redSpans_write]
    exact ih (fun c hc => h c (List.mem_cons_of_mem _ hc))

theorem redSpans_header_append (t r : List Nat) (l : List Out) :
    redSpans (headerOut t r ++ l) = redSpans l := by
  simp [headerOut]

theorem chainMatches_head {len lo s e : Nat} {ms : List (Nat × Nat)}
    (h : chainMatches len lo ((s, e) :: ms) = true) :
    lo ≤ s ∧ s ≤ e ∧ e ≤ len ∧ chainMatches len e ms = true := by
  rw [chainMatches] at h
  simp only [Bool.and_eq_true, decide_eq_true_eq] at h
  exact ⟨h.1.1.1, h.1.1.2, h.1.2, h.2⟩

theorem chainMatches_anti {len lo lo' : Nat} {ms : List (Nat × Nat)}
    (h : lo' ≤ lo) (hc : chainMatches len lo ms = true) :
    chainMatches len lo' ms = true := by
  cases ms with
  | nil => rw [chainMatches]
  | cons m ms =>
    obtain ⟨s, e⟩ := m
    rw [chainMatches] at hc ⊢
    simp only [Bool.and_eq_true, decide_eq_true_eq] at hc ⊢
    exact ⟨⟨⟨by omega, hc.1.1.2⟩, hc.1.2⟩, hc.2⟩

theorem aEndSpec_bounds (text : List Nat) {s e : Nat} (hse : s ≤ e) :
    s ≤ aEndSpec text s e ∧ aEndSpec text s e ≤ e := by
  unfold aEndSpec
  split <;> omega

theorem actualMatchEnd_eq (text : List Nat) {s e : Nat} (hse : s ≤ e)
    (hel : e ≤ text.length) :
    actualMatchEnd text s e = some (aEndSpec text s e) := by
  unfold actualMatchEnd aEndSpec
  by_cases h : s < e
  · rw [if_pos h]
    obtain ⟨v, hv⟩ : ∃ v, text.get? (e - 1) = some v := by
      cases hg : text.get? (e - 1) with
      | none => rw [List.get?_eq_none] at hg; omega
      | some v => exact ⟨v, rfl⟩
    rw [hv]
    dsimp only
    have hgd : text.getD (e - 1) 0 = v := by
      rw [List.getD_eq_getD_get?, hv]; rfl
    rw [hgd]
    by_cases hvn : v = 10
    · rw [if_pos hvn, if_pos ⟨h, hvn⟩]
    · rw [if_neg hvn, if_neg (by tauto)]
  · rw [if_neg h, if_neg (by tauto)]

/-- In-bounds `betweenChunks` never panics, and on success emits only plain
writes. -/
theorem betweenChunks_cases (text : List Nat) (lastEnd s : Nat) (first : Bool)
    (h1 : lastEnd ≤ s) (h2 : s ≤ text.length) :
    betweenChunks text lastEnd s first = .err ∨
    ∃ cs, betweenChunks text lastEnd s first = .ok cs ∧
      ∀ c ∈ cs, ∃ w, c = Out.write w := by
  have hsl : sliceChecked text lastEnd s = some ((text.take s).drop lastEnd) := by
    rw [sliceChecked, if_pos ⟨h1, h2⟩]
  unfold betweenChunks
  rw [hsl]
  dsimp only
  set between := (text.take s).drop lastEnd with hbdef
  have hblen : between.length = s - lastEnd := by
    rw [hbdef, List.length_drop, List.length_take]
    omega
  cases hm : memrchr 10 between with
  | none =>
    by_cases hu : utf8Valid between
    · right
      refine ⟨[.write between], by rw [if_pos hu], ?_⟩
      intro c hc
      simp only [List.mem_singleton] at hc
      exact ⟨between, hc⟩
    · left
      rw [if_neg hu]
  | some pos =>
    have hposlt : pos < between.length := memrchr_lt_length hm
    -- the forward scan also finds a newline: the panic branch is unreachable
    obtain ⟨pos2, hpos2⟩ :=
      Option.isSome_iff_exists.mp (memchr_isSome_of_memrchr hm)
    have hpos2lt : pos2 < between.length := memchr_lt_length hpos2
    have hsl2 : sliceChecked text lastEnd (lastEnd + pos2) =
        some ((text.take (lastEnd + pos2)).drop lastEnd) := by
      rw [sliceChecked, if_pos ⟨by omega, by omega⟩]
    have hsl3 : sliceChecked text (lastEnd + pos + 1) s =
        some ((text.take s).drop (lastEnd + pos + 1)) := by
      rw [sliceChecked, if_pos ⟨by omega, h2⟩]
    dsimp only
    rw [hpos2]
    dsimp only
    rw [hsl2, hsl3]
    dsimp only
    set line := (text.take (lastEnd + pos2)).drop lastEnd
    set preLine := (text.take s).drop (lastEnd + pos + 1)
    by_cases hu3 : utf8Valid preLine
    · rw [if_pos hu3]
      cases first with
      | true =>
        right
        refine ⟨[.write preLine], by simp [fseq], ?_⟩
        intro c hc
        simp only [List.mem_singleton] at hc
        exact ⟨preLine, hc⟩
      | false =>
        by_cases hu2 : utf8Valid line
        · rw [if_pos hu2]
          right
          refine ⟨[.write (line ++ [10]), .write preLine], by simp [fseq], ?_⟩
          intro c hc
          rcases List.mem_cons.mp hc with rfl | hc2
          · exact ⟨line ++ [10], rfl⟩
          · simp only [List.mem_singleton] at hc2
            exact ⟨preLine, hc2⟩
        · rw [if_neg hu2]
          left
          simp [fseq]
    · rw [if_neg hu3]
      cases first with
      | true => left; simp [fseq]
      | false =>
        by_cases hu2 : utf8Valid line
        · rw [if_pos hu2]; left; simp [fseq]
        · rw [if_neg hu2]; left; simp [fseq]

/-- Main characterisation of the `find_in_text` loop: for a match list that
`find_iter` can produce (relative to the running `last_match_end` bound), the
loop never panics, and when it succeeds the red-colored spans are exactly the
newline-adjusted match slices. -/
theorem findInTextLoop_spec (text title rid : List Nat) (ms : List (Nat × Nat)) :
    ∀ (lastEnd : Nat) (first : Bool),
      chainMatches text.length lastEnd ms = true → lastEnd ≤ text.length →
      findInTextLoop text title rid ms lastEnd first ≠ .panicked ∧
      ∀ out, findInTextLoop text title rid ms lastEnd first = .ok out →
        redSpans out = ms.map (aEndSlice text) := by
  induction ms with
  | nil =>
    intro lastEnd first _ hle
    cases first with
    | true =>
      rw [findInTextLoop]
      exact ⟨by simp, by rintro out ⟨rfl⟩; simp⟩
    | false =>
      rw [findInTextLoop]
      have hsl : sliceChecked text lastEnd text.length =
          some ((text.take text.length).drop lastEnd) := by
        rw [sliceChecked, if_pos ⟨hle, le_refl _⟩]
      rw [hsl]
      dsimp only
      set tail := (text.take text.length).drop lastEnd with htdef
      have htlen : tail.length = text.length - lastEnd := by
        rw [htdef, List.length_drop, List.length_take]
        omega
      cases hm : memchr 10 tail with
      | none =>
        by_cases hu : utf8Valid tail
        · rw [if_pos hu]
          exact ⟨by simp, by rintro out ⟨rfl⟩; simp⟩
        · rw [if_neg hu]
          exact ⟨by simp, by rintro out ⟨⟩⟩
      | some pos =>
        have hposlt : pos < tail.length := memchr_lt_length hm
        have hsl2 : sliceChecked text lastEnd (lastEnd + pos) =
            some ((text.take (lastEnd + pos)).drop lastEnd) := by
          rw [sliceChecked, if_pos ⟨by omega, by omega⟩]
        dsimp only
        rw [hsl2]
        dsimp only
        by_cases hu : utf8Valid ((text.take (lastEnd + pos)).drop lastEnd)
        · rw [if_pos hu]
          exact ⟨by simp, by rintro out ⟨rfl⟩; simp⟩
        · rw [if_neg hu]
          exact ⟨by simp, by rintro out ⟨⟩⟩
  | cons m ms ih =>
    obtain ⟨s, e⟩ := m
    intro lastEnd first hchain hle
    obtain ⟨h1, h2, h3, hrest⟩ := chainMatches_head hchain
    have haeb := aEndSpec_bounds text h2
    rw [findInTextLoop]
    rw [actualMatchEnd_eq text h2 h3]
    dsimp only
    have hsl : sliceChecked text s (aEndSpec text s e) =
        some ((text.take (aEndSpec text s e)).drop s) := by
      rw [sliceChecked, if_pos ⟨haeb.1, by omega⟩]
    rw [hsl]
    dsimp only
    rcases betweenChunks_cases text lastEnd s first (by omega) (by omega) with
      hb | ⟨cs, hbc, hcw⟩
    · rw [hb]
      refine ⟨?_, ?_⟩ <;> cases first <;> simp [fseq]
    · rw [hbc]
      have ihh := ih (aEndSpec text s e) false
        (chainMatches_anti haeb.2 hrest) (by omega)
      by_cases hu : utf8Valid ((text.take (aEndSpec text s e)).drop s)
      · rw [if_pos hu]
        cases hr : findInTextLoop text title rid ms (aEndSpec text s e) false with
        | ok out' =>
          refine ⟨?_, ?_⟩
          · cases first <;> simp [fseq]
          · intro out hout
            have hrs := ihh.2 out' hr
            cases first with
            | true =>
              simp only [fseq, eq_self_iff_true, if_true] at hout
              cases hout
              rw [redSpans_header_append, redSpans_writes_append _ hcw]
              simp only [List.cons_append, List.nil_append, redSpans_triple, hrs,
                List.map_cons, aEndSlice, aEndSpec]
            | false =>
              simp only [fseq, if_neg (by simp : ¬ (false = true)), List.nil_append] at hout
              cases hout
              rw [redSpans_writes_append _ hcw]
              simp only [List.cons_append, List.nil_append, redSpans_triple, hrs,
                List.map_cons, aEndSlice, aEndSpec]
        | err =>
          refine ⟨?_, ?_⟩
          · cases first <;> simp [fseq]
          · intro out hout
            cases first <;> simp [fseq] at hout
        | panicked => exact absurd hr ihh.1
      · rw [if_neg hu]
        refine ⟨?_, ?_⟩
        · cases first <;> simp [fseq]
        · intro out hout
          cases first <;> simp [fseq] at hout

/-! ### Claims C2 and C9 -/

/-- **C2, counterexample.** The claim says the substring printed in red equals
the regex's reported match bytes exactly, with no truncation.  For
`text = "Xyz\n"` and the single match `[0, 4)` (e.g. regex `Xyz\n`), the match
bytes are `"Xyz\n" = [88, 121, 122, 10]`, but the code truncates the trailing
newline (lib.rs 536-540): the red span is `"Xyz" = [88, 121, 122]`. -/
theorem red_span_not_exact_match_bytes :
    (findInText [] [] [88, 121, 122, 10] [(0, 4)]).isOk = true ∧
    redSpans (findInText [] [] [88, 121, 122, 10] [(0, 4)]).outChunks
      = [[88, 121, 122]] ∧
    (([88, 121, 122, 10] : List Nat).take 4).drop 0 = [88, 121, 122, 10] ∧
    redSpans (findInText [] [] [88, 121, 122, 10] [(0, 4)]).outChunks
      ≠ [(([88, 121, 122, 10] : List Nat).take 4).drop 0] := by
  decide

/-- **C2, amended.** In line-oriented mode, for every match emitted by
`find_in_text`, the substring printed in red (between the set-red and reset
transitions) equals the regex's reported match bytes, except that a nonempty
match ending in a newline byte has that trailing newline omitted from the red
span (`aEndSlice`); there is no other truncation and no extension. -/
theorem findInText_red_spans (title rid text : List Nat) (ms : List (Nat × Nat))
    (h : chainMatches text.length 0 ms = true)
    (hok : (findInText title rid text ms).isOk = true) :
    redSpans (findInText title rid text ms).outChunks = ms.map (aEndSlice text) := by
  have hs := findInTextLoop_spec text title rid ms 0 true h (Nat.zero_le _)
  unfold findInText at hok ⊢
  cases hr : findInTextLoop text title rid ms 0 true with
  | ok out =>
    exact hs.2 out hr
  | err => rw [hr] at hok; exact absurd hok (by simp [FRes.isOk])
  | panicked => rw [hr] at hok; exact absurd hok (by simp [FRes.isOk])

/-- Witness for `findInText_red_spans` at a concrete input. -/
theorem findInText_red_spans_witness :
    chainMatches ([88, 121, 122, 10] : List Nat).length 0 [(0, 4)] = true ∧
    (findInText [] [] [88, 121, 122, 10] [(0, 4)]).isOk = true ∧
    redSpans (findInText [] [] [88, 121, 122, 10] [(0, 4)]).outChunks
      = [(0, 4)].map (aEndSlice [88, 121, 122, 10]) :=
  ⟨by decide, by decide,
    findInText_red_spans [] [] [88, 121, 122, 10] [(0, 4)] (by decide) (by decide)⟩

/-- **C9.** `find_in_text` never panics: for every text and every match
sequence in left-to-right non-overlapping order with bounds inside the text
(as `find_iter` produces), the `"Memchr/Memrchr inconsistency"` branch is
unreachable and every slice index stays in bounds. -/
theorem findInText_no_panic (title rid text : List Nat) (ms : List (Nat × Nat))
    (h : chainMatches text.length 0 ms = true) :
    findInText title rid text ms ≠ FRes.panicked :=
  (findInTextLoop_spec text title rid ms 0 true h (Nat.zero_le _)).1

/-- Witness for `findInText_no_panic` at a concrete input. -/
theorem findInText_no_panic_witness :
    chainMatches ([65, 10, 66] : List Nat).length 0 [(0, 2), (2, 3)] = true ∧
    findInText [] [] [65, 10, 66] [(0, 2), (2, 3)] ≠ FRes.panicked :=
  ⟨by decide, findInText_no_panic [] [] [65, 10, 66] [(0, 2), (2, 3)] (by decide)⟩

/-! ## Page extractor / search loop (`search_dump_reader`, lib.rs 400-490)

The quick_xml pull parser (an external crate) is abstracted by the list of
events it delivers; the end of the list is the `Eof` event.  Tag names are
compared only against ASCII literals, so they are `String`s; text content is
the unescaped bytes (`Event::Text` after `unescaped()`).  The loop structure
of `search_dump_reader` and of its helpers `skip_to_start_tag_or_eof`,
`skip_to_start_tag`, `skip_to_start_tag_or_empty_tag`, `read_str_and_then`
and `read_bytes_and_then` is flattened into one state machine `runLoop` that
consumes one event per step; each `Mode` value records exactly where in those
nested loops the Rust code is.  This models the streaming entry point with
`start = 0, end = u64::MAX` (as used for compressed input and single-range
searches); the range-boundary check on `buffer_position` is modelled
separately by `workerPages`. -/

inductive Event where
  | start (n : String)
  | empty (n : String)
  | text (content : List Nat)
  | endTag (n : String)
deriving DecidableEq, Repr

/-- Error kinds reachable from the search loop (a subset of `Error`). -/
inductive XErr where
  | onlyTextExpected (tag : String)
  | unexpectedEmptyTag (tag : String)
  | unexpectedEof (tag : String)
  | utf8
deriving DecidableEq, Repr

/-- Result of a search run: the output chunks flushed to stdout before the
run finished, errored, or panicked (each revision's output is flushed
separately, so output preceding an error remains). -/
inductive RRes where
  | ok (out : List Out)
  | err (out : List Out) (e : XErr)
  | panicked (out : List Out)
deriving DecidableEq, Repr

/-- Prepend already-flushed chunks to a run result. -/
def withOut (cs : List Out) : RRes → RRes
  | .ok out => .ok (cs ++ out)
  | .err out e => .err (cs ++ out) e
  | .panicked out => .panicked (cs ++ out)

/-- The search options and the compiled regex, abstracted: `isMatch` is
`re.is_match`, `findIter` is the match list `re.find_iter` yields. -/
structure SParams where
  restrictNs : Option (List (List Nat))
  onlyTitle : Bool
  isMatch : List Nat → Bool
  findIter : List Nat → List (Nat × Nat)

/-- Title-only output for one matching revision (lib.rs 458-467): cyan title,
plain `@`, yellow revision id, plain — and no newline (`buffer_write!`, not
`buffer_writeln!`). -/
def titleOnlyChunks (title rid : List Nat) : List Out :=
  [.color .cyan, .write title, .reset, .write [64], .color .yellow,
   .write rid, .reset]

/-- Where in the nested loops of `search_dump_reader` the parser is:
* `outside` — the outer loop's `skip_to_start_tag_or_eof(b"page")`;
* `inPage` — the inner per-page event loop (lib.rs 426-487);
* `readTitle`/`readNs`/`readRevId`/`readText` — inside `read_str_and_then` /
  `read_bytes_and_then` for the corresponding tag, expecting a text event;
* `skipToRevId` — `skip_to_start_tag(b"id")` after `<revision>`;
* `skipToText` — `skip_to_start_tag_or_empty_tag(b"text")`. -/
inductive Mode where
  | outside
  | inPage
  | readTitle
  | readNs
  | skipToRevId
  | readRevId
  | skipToText
  | readText
deriving DecidableEq, Repr

/-- One revision's emission (lib.rs 456-475): in title-only mode, the header
without newline if the regex matches; otherwise `find_in_text`. -/
def revisionEmit (p : SParams) (title rid txt : List Nat) : FRes :=
  if p.onlyTitle then
    .ok (if p.isMatch txt then titleOnlyChunks title rid else [])
  else
    findInText title rid txt (p.findIter txt)

/-- The state machine of `search_dump_reader` over the event stream.  `title`
and `rid` are the worker's `title` / `revision_id` buffers. -/
def runLoop (p : SParams) : List Event → Mode → List Nat → List Nat → RRes
  | [], m, _, _ =>
    match m with
    | .outside => .ok []
    | .inPage => .err [] (.unexpectedEof "page")
    | .readTitle => .err [] (.onlyTextExpected "title")
    | .readNs => .err [] (.onlyTextExpected "ns")
    | .skipToRevId => .err [] (.unexpectedEof "id")
    | .readRevId => .err [] (.onlyTextExpected "id")
    | .skipToText => .err [] (.unexpectedEof "text")
    | .readText => .err [] (.onlyTextExpected "text")
  | ev :: rest, m, title, rid =>
    match m with
    | .outside =>
      match ev with
      | .start n => if n = "page" then runLoop p rest .inPage title rid
                    else runLoop p rest .outside title rid
      | .empty n => if n = "page" then .err [] (.unexpectedEmptyTag "page")
                    else runLoop p rest .outside title rid
      | _ => runLoop p rest .outside title rid
    | .inPage =>
      match ev with
      | .start n =>
        if n = "title" then runLoop p rest .readTitle title rid
        else if n = "ns" then
          match p.restrictNs with
          | some _ => runLoop p rest .readNs title rid
          | none => runLoop p rest .inPage title rid
        else if n = "revision" then runLoop p rest .skipToRevId title rid
        else runLoop p rest .inPage title rid
      | .endTag n => if n = "page" then runLoop p rest .outside title rid
                     else runLoop p rest .inPage title rid
      | _ => runLoop p rest .inPage title rid
    | .readTitle =>
      match ev with
      | .text t => if utf8Valid t then runLoop p rest .inPage t rid
                   else .err [] .utf8
      | _ => .err [] (.onlyTextExpected "title")
    | .readNs =>
      match ev with
      | .text t =>
        if utf8Valid t then
          match p.restrictNs with
          | some nss => if nss.contains t then runLoop p rest .inPage title rid
                        else runLoop p rest .outside title rid
          | none => runLoop p rest .inPage title rid
        else .err [] .utf8
      | _ => .err [] (.onlyTextExpected "ns")
    | .skipToRevId =>
      match ev with
      | .start n => if n = "id" then runLoop p rest .readRevId title rid
                    else runLoop p rest .skipToRevId title rid
      | .empty n => if n = "id" then .err [] (.unexpectedEmptyTag "id")
                    else runLoop p rest .skipToRevId title rid
      | _ => runLoop p rest .skipToRevId title rid
    | .readRevId =>
      match ev with
      | .text t => if utf8Valid t then runLoop p rest .skipToText title t
                   else .err [] .utf8
      | _ => .err [] (.onlyTextExpected "id")
    | .skipToText =>
      match ev with
      | .start n => if n = "text" then runLoop p rest .readText title rid
                    else runLoop p rest .skipToText title rid
      | .empty n => if n = "text" then runLoop p rest .inPage title rid
                    else runLoop p rest .skipToText title rid
      | _ => runLoop p rest .skipToText title rid
    | .readText =>
      match ev with
      | .text t =>
        match revisionEmit p title rid t with
        | .ok cs => withOut cs (runLoop p rest .inPage title rid)
        | .err => .err [] .utf8
        | .panicked => .panicked []
      | _ => .err [] (.onlyTextExpected "text")

/-- `search_dump_reader` on a whole stream (single streaming range). -/
def searchStream (p : SParams) (events : List Event) : RRes :=
  runLoop p events .outside [] []

/-! ### Canonical dump event shapes (the export layout of spec section 6) -/

/-- The events of one `<revision>`: first `<id>`, then a `<text>` element that
is either a `Start`/`Text`/`End` triple (`some txt`) or an empty-element tag
(`none`), followed by the continuation `k`. -/
def revEvents (rid : List Nat) (txt : Option (List Nat)) (k : List Event) :
    List Event :=
  .start "revision" :: .start "id" :: .text rid :: .endTag "id" ::
    (match txt with
     | some t => .start "text" :: .text t :: .endTag "text" :: .endTag "revision" :: k
     | none => .empty "text" :: .endTag "revision" :: k)

def revsEvents : List (List Nat × Option (List Nat)) → List Event → List Event
  | [], k => k
  | (rid, txt) :: rs, k => revEvents rid txt (revsEvents rs k)

/-- The events of one `<page>` with a title, a namespace and a revision list,
followed by `rest`. -/
def pageEvents (title ns : List Nat) (revs : List (List Nat × Option (List Nat)))
    (rest : List Event) : List Event :=
  .start "page" :: .start "title" :: .text title :: .endTag "title" ::
    .start "ns" :: .text ns :: .endTag "ns" ::
    revsEvents revs (.endTag "page" :: rest)

/-- The revision id held in the `revision_id` buffer after a revision list
(the last revision's id, or the previous contents). -/
def lastRid (revs : List (List Nat × Option (List Nat))) (r0 : List Nat) : List Nat :=
  (revs.map Prod.fst).getLastD r0

/-- Expected output of a revision list: each revision with text emits its
chunks (an error or panic inside `find_in_text` aborts the run); an
empty-element `<text>` emits nothing. -/
def revsExpected (p : SParams) (title : List Nat) :
    List (List Nat × Option (List Nat)) → RRes → RRes
  | [], k => k
  | (_, none) :: rs, k => revsExpected p title rs k
  | (rid, some txt) :: rs, k =>
    match revisionEmit p title rid txt with
    | .ok cs => withOut cs (revsExpected p title rs k)
    | .err => .err [] .utf8
    | .panicked => .panicked []

theorem lastRid_cons (rid : List Nat) (txt : Option (List Nat))
    (rs : List (List Nat × Option (List Nat))) (r0 : List Nat) :
    lastRid ((rid, txt) :: rs) r0 = lastRid rs rid := by
  unfold lastRid
  rw [List.map_cons, List.getLastD_cons]

/-- Running the loop from `inPage` over a canonical revision list processes
each revision: ids are read into the `revision_id` buffer, revisions with a
`Start` text element emit their output, empty-element texts emit nothing. -/
theorem run_revs (p : SParams) (t : List Nat)
    (revs : List (List Nat × Option (List Nat))) (k : List Event) :
    ∀ r0 : List Nat, (∀ pr ∈ revs, utf8Valid pr.1 = true) →
    runLoop p (revsEvents revs k) .inPage t r0
      = revsExpected p t revs (runLoop p k .inPage t (lastRid revs r0)) := by
  induction revs with
  | nil =>
    intro r0 _
    simp [revsEvents, revsExpected, lastRid]
  | cons pr rs ih =>
    intro r0 hids
    obtain ⟨rid, txt⟩ := pr
    have hrid : utf8Valid rid = true := hids (rid, txt) (List.mem_cons_self _ _)
    have hrest : ∀ pr ∈ rs, utf8Valid pr.1 = true :=
      fun pr h => hids pr (List.mem_cons_of_mem _ h)
    rw [lastRid_cons]
    cases txt with
    | none =>
      simp only [revsEvents, revEvents]
      simp only [runLoop, hrid]
      simp only [String.reduceEq, reduceIte, if_true, if_pos rfl]
      rw [ih rid hrest]
      rw [revsExpected]
    | some txt =>
      simp only [revsEvents, revEvents]
      simp only [runLoop, hrid]
      simp only [String.reduceEq, reduceIte, if_true, if_pos rfl]
      rw [revsExpected]
      cases he : revisionEmit p t rid txt with
      | ok cs =>
        dsimp only
        rw [ih rid hrest]
      | err => rfl
      | panicked => rfl

/-- Scanning a canonical revision list in `outside` mode skips all of it:
none of its events is a `<page>` start or empty tag. -/
theorem run_outside_revs (p : SParams)
    (revs : List (List Nat × Option (List Nat))) (k : List Event)
    (t r : List Nat) :
    runLoop p (revsEvents revs k) .outside t r = runLoop p k .outside t r := by
  induction revs with
  | nil => rw [revsEvents]
  | cons pr rs ih =>
    obtain ⟨rid, txt⟩ := pr
    cases txt with
    | none =>
      simp only [revsEvents, revEvents]
      simp only [runLoop, String.reduceEq, reduceIte]
      exact ih
    | some txt =>
      simp only [revsEvents, revEvents]
      simp only [runLoop, String.reduceEq, reduceIte]
      exact ih

/-- A canonical page under no namespace filter: the title is read, the `<ns>`
text event is ignored, and all revisions are processed. -/
theorem run_page_no_filter (p : SParams) (hp : p.restrictNs = none)
    (t ns : List Nat) (revs : List (List Nat × Option (List Nat)))
    (rest : List Event) (t0 r0 : List Nat)
    (ht : utf8Valid t = true)
    (hids : ∀ pr ∈ revs, utf8Valid pr.1 = true) :
    runLoop p (pageEvents t ns revs rest) .outside t0 r0
      = revsExpected p t revs (runLoop p rest .outside t (lastRid revs r0)) := by
  simp only [pageEvents]
  simp only [runLoop, ht, hp]
  simp only [String.reduceEq, reduceIte, if_true, if_pos rfl]
  rw [run_revs p t revs _ r0 hids]
  simp only [runLoop, String.reduceEq, reduceIte, if_pos rfl]

/-- A canonical page whose namespace fails the filter: the loop breaks out of
the page after the `<ns>` text, skips the rest of the page without parsing
its revisions, and continues with `rest`; the `revision_id` buffer is
untouched. -/
theorem run_page_filtered_out (p : SParams) (nss : List (List Nat))
    (hp : p.restrictNs = some nss) (t ns : List Nat)
    (revs : List (List Nat × Option (List Nat))) (rest : List Event)
    (t0 r0 : List Nat)
    (ht : utf8Valid t = true) (hns : utf8Valid ns = true)
    (hnotin : nss.contains ns = false) :
    runLoop p (pageEvents t ns revs rest) .outside t0 r0
      = runLoop p rest .outside t r0 := by
  simp only [pageEvents]
  simp only [runLoop, ht, hns, hp, hnotin]
  simp only [String.reduceEq, reduceIte, if_true, if_pos rfl]
  rw [run_outside_revs]
  simp only [runLoop, String.reduceEq, reduceIte]
  simp only [Bool.false_eq_true, reduceIte]

/-- Removing a revision whose `<text>` is an empty-element tag does not change
the expected output. -/
theorem revsExpected_middle_none (p : SParams) (t rid : List Nat)
    (revs1 revs2 : List (List Nat × Option (List Nat))) (k : RRes) :
    revsExpected p t (revs1 ++ (rid, none) :: revs2) k
      = revsExpected p t (revs1 ++ revs2) k := by
  induction revs1 with
  | nil =>
    rw [List.nil_append, List.nil_append, revsExpected]
  | cons pr rs ih =>
    obtain ⟨r, txt⟩ := pr
    cases txt with
    | none =>
      rw [List.cons_append, List.cons_append]
      simp only [revsExpected]
      exact ih
    | some txt =>
      rw [List.cons_append, List.cons_append]
      simp only [revsExpected]
      cases he : revisionEmit p t r txt with
      | ok cs => dsimp only; rw [ih]
      | err => rfl
      | panicked => rfl

/-! ### Claims C3, C6, C7, C10 -/

/-- Search options for title-only mode with a match-everything regex and no
namespace filter. -/
def pTitleAll : SParams :=
  { restrictNs := none, onlyTitle := true,
    isMatch := fun _ => true, findIter := fun _ => [] }

/-- Search options for title-only mode restricted to namespace `"0"`. -/
def pTitleNs0 : SParams :=
  { restrictNs := some [[48]], onlyTitle := true,
    isMatch := fun _ => true, findIter := fun _ => [] }

/-- Search options with an explicitly empty namespace set. -/
def pTitleNsEmpty : SParams :=
  { restrictNs := some [], onlyTitle := true,
    isMatch := fun _ => true, findIter := fun _ => [] }

/-- **C3 (code bug).** In title-only mode, a matching revision emits
`<cyan>title</cyan>@<yellow>revision-id</yellow>` with **no** trailing
newline: the code writes the revision id with `buffer_write!` (lib.rs 464),
not `buffer_writeln!`.  Concretely, for a page with title `"T"`, one revision
with id `"7"` and matching text `"X"`, the whole output is the seven header
chunks and no written chunk contains a newline byte; the claim requires the
line to be newline-terminated.  (The older `wikidumpgrep/src/lib.rs:409` in
this repository uses `writeln!` here, so the missing newline is a
regression.) -/
theorem title_only_output_lacks_newline :
    searchStream pTitleAll (pageEvents [84] [48] [([55], some [88])] [])
      = .ok (titleOnlyChunks [84] [55]) ∧
    (titleOnlyChunks [84] [55]).all
      (fun c => match c with
        | Out.write w => !(w.contains 10)
        | _ => true) = true ∧
    searchStream pTitleAll (pageEvents [84] [48] [([55], none)] []) = .ok [] := by
  decide

/-- **C6.** When `restrict_namespaces` is absent no namespace filter is
applied and every page is searched (all revisions are processed, whatever the
`<ns>` text is); when it is set, a page whose `<ns>` text is not a member of
the set is skipped entirely: its revisions are never parsed, they produce no
output, and the scan continues with the following events. -/
theorem restrict_namespaces_filter (p : SParams) (t ns : List Nat)
    (revs : List (List Nat × Option (List Nat))) (rest : List Event)
    (t0 r0 : List Nat)
    (ht : utf8Valid t = true) (hns : utf8Valid ns = true)
    (hids : ∀ pr ∈ revs, utf8Valid pr.1 = true) :
    (p.restrictNs = none →
      runLoop p (pageEvents t ns revs rest) .outside t0 r0
        = revsExpected p t revs (runLoop p rest .outside t (lastRid revs r0))) ∧
    (∀ nss, p.restrictNs = some nss → nss.contains ns = false →
      runLoop p (pageEvents t ns revs rest) .outside t0 r0
        = runLoop p rest .outside t r0) :=
  ⟨fun hp => run_page_no_filter p hp t ns revs rest t0 r0 ht hids,
   fun nss hp hn => run_page_filtered_out p nss hp t ns revs rest t0 r0 ht hns hn⟩

/-- Witness for `restrict_namespaces_filter`: a concrete page (title `"T"`,
namespace `"1"`, one revision) searched without a filter and with the filter
`{"0"}`. -/
theorem restrict_namespaces_filter_witness :
    utf8Valid [84] = true ∧ utf8Valid [49] = true ∧
    (∀ pr ∈ [([55], some [88])], utf8Valid (Prod.fst pr) = true) ∧
    runLoop pTitleAll (pageEvents [84] [49] [([55], some [88])] []) .outside [] []
      = revsExpected pTitleAll [84] [([55], some [88])]
          (runLoop pTitleAll [] .outside [84] (lastRid [([55], some [88])] [])) ∧
    runLoop pTitleNs0 (pageEvents [84] [49] [([55], some [88])] []) .outside [] []
      = runLoop pTitleNs0 [] .outside [84] [] :=
  ⟨by decide, by decide, by decide,
   (restrict_namespaces_filter pTitleAll [84] [49] [([55], some [88])] [] [] []
     (by decide) (by decide) (by decide)).1 rfl,
   (restrict_namespaces_filter pTitleNs0 [84] [49] [([55], some [88])] [] [] []
     (by decide) (by decide) (by decide)).2 [[48]] rfl (by decide)⟩

/-- **C7.** A revision whose `<text>` element appears as an empty-element tag
emits nothing, regardless of the regex (the whole search output is unchanged
if the revision is removed). -/
theorem empty_text_revision_emits_nothing (p : SParams) (hp : p.restrictNs = none)
    (t ns rid : List Nat) (revs1 revs2 : List (List Nat × Option (List Nat)))
    (t0 r0 : List Nat)
    (ht : utf8Valid t = true) (hrid : utf8Valid rid = true)
    (hids1 : ∀ pr ∈ revs1, utf8Valid pr.1 = true)
    (hids2 : ∀ pr ∈ revs2, utf8Valid pr.1 = true) :
    runLoop p (pageEvents t ns (revs1 ++ (rid, none) :: revs2) []) .outside t0 r0
      = runLoop p (pageEvents t ns (revs1 ++ revs2) []) .outside t0 r0 := by
  have hidsL : ∀ pr ∈ revs1 ++ (rid, none) :: revs2, utf8Valid pr.1 = true := by
    intro pr h
    rcases List.mem_append.mp h with h | h
    · exact hids1 _ h
    · rcases List.mem_cons.mp h with rfl | h
      · exact hrid
      · exact hids2 _ h
  have hidsR : ∀ pr ∈ revs1 ++ revs2, utf8Valid pr.1 = true := by
    intro pr h
    rcases List.mem_append.mp h with h | h
    · exact hids1 _ h
    · exact hids2 _ h
  rw [run_page_no_filter p hp t ns _ [] t0 r0 ht hidsL,
      run_page_no_filter p hp t ns _ [] t0 r0 ht hidsR]
  have hc1 : runLoop p [] .outside t (lastRid (revs1 ++ (rid, none) :: revs2) r0)
      = .ok [] := rfl
  have hc2 : runLoop p [] .outside t (lastRid (revs1 ++ revs2) r0) = .ok [] := rfl
  rw [hc1, hc2, revsExpected_middle_none]

/-- Witness for `empty_text_revision_emits_nothing` at a concrete page. -/
theorem empty_text_revision_emits_nothing_witness :
    pTitleAll.restrictNs = none ∧ utf8Valid [84] = true ∧
    utf8Valid [55] = true ∧
    runLoop pTitleAll
        (pageEvents [84] [48] ([([54], some [88])] ++ ([55], none) :: []) [])
        .outside [] []
      = runLoop pTitleAll (pageEvents [84] [48] ([([54], some [88])] ++ []) [])
        .outside [] [] :=
  ⟨rfl, by decide, by decide,
   empty_text_revision_emits_nothing pTitleAll rfl [84] [48] [55]
     [([54], some [88])] [] [] [] (by decide) (by decide) (by decide) (by decide)⟩

/-- **C10.** An explicitly empty `restrict_namespaces` set filters out every
page that has an `<ns>` element (for any namespace text): the page's
revisions are never parsed and a stream of such pages emits no output at
all. -/
theorem empty_ns_set_filters_everything (p : SParams)
    (hp : p.restrictNs = some []) (t ns : List Nat)
    (revs : List (List Nat × Option (List Nat))) (rest : List Event)
    (t0 r0 : List Nat)
    (ht : utf8Valid t = true) (hns : utf8Valid ns = true) :
    runLoop p (pageEvents t ns revs rest) .outside t0 r0
      = runLoop p rest .outside t r0 ∧
    runLoop p (pageEvents t ns revs []) .outside t0 r0 = .ok [] := by
  refine ⟨run_page_filtered_out p [] hp t ns revs rest t0 r0 ht hns (by simp), ?_⟩
  rw [run_page_filtered_out p [] hp t ns revs [] t0 r0 ht hns (by simp)]
  rfl

/-- Witness for `empty_ns_set_filters_everything` at a concrete page. -/
theorem empty_ns_set_filters_everything_witness :
    pTitleNsEmpty.restrictNs = some [] ∧ utf8Valid [84] = true ∧
    utf8Valid [48] = true ∧
    (runLoop pTitleNsEmpty (pageEvents [84] [48] [([55], some [88])] [])
        .outside [] []
      = runLoop pTitleNsEmpty [] .outside [84] [] ∧
     runLoop pTitleNsEmpty (pageEvents [84] [48] [([55], some [88])] [])
        .outside [] [] = .ok []) :=
  ⟨rfl, by decide, by decide,
   empty_ns_set_filters_everything pTitleNsEmpty rfl [84] [48]
     [([55], some [88])] [] [] [] (by decide) (by decide)⟩

/-! ## Dump resolver (`get_dump_files`, lib.rs 566-635)

File names are byte lists (Rust `String`s compare bytewise).  Modelled:
the branch where the argument names an existing regular file
(`fileMeta = some size`), and the prefix branch (`fileMeta = none`) over the
parent directory's regular files given as `(file name, size)` pairs —
collection by `starts_with(prefix)` with the size added *during collection*
(lib.rs 603, before de-duplication), then `sort_unstable` (bytewise
lexicographic; modelled by insertion sort, extensionally the sorted
permutation), then the adjacent-equal-stem removal loop (lib.rs 617-624).
Not modelled: parent-directory resolution, the `DumpFileOrPrefixInvalid` and
I/O error paths, and non-UTF-8 names (the code `unwrap`s UTF-8).  The code
pushes `entry.path()` while testing `entry.file_name()` against the prefix;
since all entries share the same parent-directory prefix this does not affect
order or stems, and names here stand for the paths. -/

/-- Bytewise lexicographic `≤` on names (Rust `String` ordering). -/
def lexLe : List Nat → List Nat → Bool
  | [], _ => true
  | _ :: _, [] => false
  | x :: xs, y :: ys => if x < y then true else if x = y then lexLe xs ys else false

def sortNames (l : List (List Nat)) : List (List Nat) :=
  List.insertionSort (fun a b => lexLe a b = true) l

/-- Rust `str::strip_suffix`. -/
def stripSuffixB (l suf : List Nat) : Option (List Nat) :=
  if suf.length ≤ l.length ∧ l.drop (l.length - suf.length) = suf then
    some (l.take (l.length - suf.length))
  else none

/-- `get_stem` (lib.rs 614-616): strip a trailing `".7z"`, else `".bz2"`,
else keep the name. -/
def get_stem (s : List Nat) : List Nat :=
  match stripSuffixB s [46, 55, 122] with
  | some t => t
  | none =>
    match stripSuffixB s [46, 98, 122, 50] with
    | some t => t
    | none => s

/-- The body of the de-duplication loop (lib.rs 617-624) with `cur` the entry
at index `i`: if the next entry shares `cur`'s stem it is removed (`cur` stays
the comparison point), otherwise `cur` is kept and the next entry becomes the
comparison point. -/
def dedupFrom (cur : List Nat) : List (List Nat) → List (List Nat)
  | [] => [cur]
  | y :: rest =>
    if get_stem cur = get_stem y then dedupFrom cur rest
    else cur :: dedupFrom y rest

/-- The whole de-duplication pass: while two *adjacent* entries share a stem,
remove the second. -/
def dedupStems : List (List Nat) → List (List Nat)
  | [] => []
  | x :: rest => dedupFrom x rest

/-- `get_dump_files`: `fileMeta = some size` models the branch where the
argument names an existing regular file; `fileMeta = none` models the prefix
branch over the directory entries.  The result `none` is the
`NoDumpFilesFound` error (the only error kind reachable in the modelled
branches). -/
def getDumpFiles (fileMeta : Option Nat) (pre : List Nat)
    (entries : List (List Nat × Nat)) : Option (List (List Nat) × Nat) :=
  let collected :=
    match fileMeta with
    | some size => ([pre], size)
    | none =>
      let matched := entries.filter (fun en => pre.isPrefixOf en.1)
      (dedupStems (sortNames (matched.map Prod.fst)),
       (matched.map Prod.snd).sum)
  if collected.1 = [] then none else some collected

/-- The `".7z"` variant of a stem. -/
def var7z (s : List Nat) : List Nat := s ++ [46, 55, 122]

/-- The `".bz2"` variant of a stem. -/
def varBz2 (s : List Nat) : List Nat := s ++ [46, 98, 122, 50]

/-- Sum of the sizes of the named directory entries (used to state what the
returned aggregate size is *not*). -/
def sizesOfNames (entries : List (List Nat × Nat)) (names : List (List Nat)) : Nat :=
  ((entries.filter (fun en => names.contains en.1)).map Prod.snd).sum

/-! ### Claims C5 and C8: counterexamples -/

/-- **C5, counterexample.**  Directory `{"a", "a!", "a.7z"}` with prefix
`"a"`: `"a!"` sorts strictly between `"a"` and `"a.7z"` (`0x21 < 0x2E`), so
the adjacent-stem dedup never compares `"a"` with `"a.7z"` and both survive,
although they share the stem `"a"` — the output does not contain exactly one
of them. -/
theorem resolver_dedup_defeated_by_interloper :
    getDumpFiles none [97] [([97], 1), ([97, 33], 1), ([97, 46, 55, 122], 1)]
      = some ([[97], [97, 33], [97, 46, 55, 122]], 3) ∧
    get_stem [97] = get_stem [97, 46, 55, 122] ∧
    ([97] : List Nat) ≠ [97, 46, 55, 122] := by
  decide

/-- **C8, counterexample.**  Directory `{"a" (1 byte), "a.7z" (2 bytes)}`
with prefix `"a"`: the returned list is `["a"]` after de-duplication, but the
aggregate size is `3` — the sizes are summed at collection time (lib.rs 603),
before duplicates are removed — while the sum of the sizes of the files in
the returned list is `1`. -/
theorem aggregate_size_counts_removed_duplicates :
    getDumpFiles none [97] [([97], 1), ([97, 46, 55, 122], 2)]
      = some ([[97]], 3) ∧
    sizesOfNames [([97], 1), ([97, 46, 55, 122], 2)] [[97]] = 1 ∧
    (3 : Nat) ≠ 1 := by
  decide

/-! ### Resolver lemmas -/

theorem dedupFrom_sublist (l : List (List Nat)) :
    ∀ cur, (dedupFrom cur l).Sublist (cur :: l) := by
  induction l with
  | nil => intro cur; rw [dedupFrom]
  | cons y rest ih =>
    intro cur
    rw [dedupFrom]
    split
    · exact (ih cur).trans ((List.sublist_cons_self y rest).cons₂ cur)
    · exact (ih y).cons₂ cur

/-- If no element from `cur` on has stem `s`, nothing with stem `s` survives. -/
theorem dedupFrom_filter_none (s : List Nat) (l : List (List Nat))
    (cur : List Nat) (hall : ∀ x ∈ cur :: l, get_stem x ≠ s) :
    (dedupFrom cur l).filter (fun x => decide (get_stem x = s)) = [] := by
  rw [List.filter_eq_nil_iff]
  intro a ha
  have := (dedupFrom_sublist l cur).subset ha
  simp only [decide_eq_true_eq]
  exact hall a this

/-- A contiguous block of stem-`s` entries starting at the comparison point
collapses to its first element; nothing later (all non-`s`) contributes. -/
theorem dedupFrom_filter_block (s : List Nat) (bs : List (List Nat)) :
    ∀ (post : List (List Nat)) (b : List Nat), get_stem b = s →
      (∀ x ∈ bs, get_stem x = s) → (∀ x ∈ post, get_stem x ≠ s) →
      (dedupFrom b (bs ++ post)).filter (fun x => decide (get_stem x = s)) = [b] := by
  induction bs with
  | nil =>
    intro post b hb _ hpost
    rw [List.nil_append]
    cases post with
    | nil =>
      rw [dedupFrom]
      rw [List.filter_cons_of_pos (by simp [hb]), List.filter_nil]
    | cons q qs =>
      rw [dedupFrom, if_neg (by rw [hb]; exact fun h => hpost q (List.mem_cons_self q qs) h.symm)]
      rw [List.filter_cons_of_pos (by simp [hb])]
      rw [dedupFrom_filter_none s qs q (fun x hx => hpost x hx)]
  | cons b1 bs' ih =>
    intro post b hb hbs hpost
    rw [List.cons_append, dedupFrom,
      if_pos (by rw [hb, hbs b1 (List.mem_cons_self b1 bs')])]
    exact ih post b hb (fun x hx => hbs x (List.mem_cons_of_mem _ hx)) hpost

/-- Walking a prefix of non-`s` entries keeps the block intact: the stem-`s`
survivors of the whole list are exactly the block's first element. -/
theorem dedupFrom_filter_pre (s : List Nat) (pre : List (List Nat)) :
    ∀ (cur b : List Nat) (bs post : List (List Nat)),
      get_stem cur ≠ s → (∀ x ∈ pre, get_stem x ≠ s) →
      get_stem b = s → (∀ x ∈ bs, get_stem x = s) → (∀ x ∈ post, get_stem x ≠ s) →
      (dedupFrom cur (pre ++ (b :: bs) ++ post)).filter
          (fun x => decide (get_stem x = s)) = [b] := by
  induction pre with
  | nil =>
    intro cur b bs post hcur _ hb hbs hpost
    rw [List.nil_append, List.cons_append, dedupFrom,
      if_neg (fun h => hcur (h.trans hb))]
    rw [List.filter_cons_of_neg (by simp [hcur])]
    exact dedupFrom_filter_block s bs post b hb hbs hpost
  | cons p pre' ih =>
    intro cur b bs post hcur hpre hb hbs hpost
    have hp : get_stem p ≠ s := hpre p (List.mem_cons_self p pre')
    have hpre' : ∀ x ∈ pre', get_stem x ≠ s :=
      fun x hx => hpre x (List.mem_cons_of_mem _ hx)
    rw [List.cons_append, List.cons_append, dedupFrom]
    split
    · exact ih cur b bs post hcur hpre' hb hbs hpost
    · rw [List.filter_cons_of_neg (by simp [hcur])]
      exact ih p b bs post hp hpre' hb hbs hpost

theorem self_ne_append {s t : List Nat} (ht : t ≠ []) : s ≠ s ++ t := by
  intro h
  have hlen := congrArg List.length h
  rw [List.length_append] at hlen
  exact ht (List.length_eq_zero.mp (by omega))

theorem stripSuffixB_append (s t : List Nat) : stripSuffixB (s ++ t) t = some s := by
  unfold stripSuffixB
  have hlen : (s ++ t).length - t.length = s.length := by
    rw [List.length_append]; omega
  rw [if_pos]
  · rw [hlen, List.take_left]
  · refine ⟨by rw [List.length_append]; omega, ?_⟩
    rw [hlen, List.drop_left]

theorem get_stem_var7z (s : List Nat) : get_stem (var7z s) = s := by
  unfold get_stem var7z
  rw [stripSuffixB_append]

theorem get_stem_varBz2 (s : List Nat) : get_stem (varBz2 s) = s := by
  unfold get_stem varBz2
  have hnone : stripSuffixB (s ++ [46, 98, 122, 50]) [46, 55, 122] = none := by
    unfold stripSuffixB
    rw [if_neg]
    rintro ⟨-, hdrop⟩
    simp only [List.length_append, List.length_cons, List.length_nil] at hdrop
    have he : s.length + (0 + 1 + 1 + 1 + 1) - (0 + 1 + 1 + 1) = s.length + 1 := by
      omega
    rw [he, List.drop_append 1] at hdrop
    simp at hdrop
  rw [hnone]
  dsimp only
  rw [stripSuffixB_append]

/-- The first element of a nonempty sorted sub-collection of
`[stem, stem.7z, stem.bz2]` is the preferred variant: plain over `.7z` over
`.bz2`. -/
theorem head_of_variant_block (s : List Nat) (block : List (List Nat))
    (hb : block ≠ []) (hsub : block.Sublist [s, var7z s, varBz2 s]) :
    block.head hb = (if s ∈ block then s
                     else if var7z s ∈ block then var7z s
                     else varBz2 s) := by
  have h1 : s ≠ var7z s := self_ne_append (by simp)
  have h2 : s ≠ varBz2 s := self_ne_append (by simp)
  have h3 : var7z s ≠ varBz2 s := by
    intro h
    have hlen := congrArg List.length h
    rw [var7z, varBz2, List.length_append, List.length_append] at hlen
    simp at hlen
  cases hsub with
  | cons₂ _ h =>
    rw [List.head_cons, if_pos (List.mem_cons_self _ _)]
  | cons _ h =>
    cases h with
    | cons₂ _ h' =>
      rw [List.head_cons, if_neg, if_pos (List.mem_cons_self _ _)]
      intro hmem
      rcases List.mem_cons.mp hmem with heq | hmem2
      · exact h1 heq
      · have h4 := h'.subset hmem2
        simp only [List.mem_singleton] at h4
        exact h2 h4
    | cons _ h' =>
      cases h' with
      | cons₂ _ h'' =>
        rw [List.head_cons, if_neg, if_neg]
        · intro hmem
          rcases List.mem_cons.mp hmem with heq | hmem2
          · exact h3 heq
          · exact List.not_mem_nil _ (List.sublist_nil.mp h'' ▸ hmem2)
        · intro hmem
          rcases List.mem_cons.mp hmem with heq | hmem2
          · exact h2 heq
          · exact List.not_mem_nil _ (List.sublist_nil.mp h'' ▸ hmem2)
      | cons _ h'' =>
        exact absurd (List.sublist_nil.mp h'') hb

theorem dedupFrom_ne_nil (l : List (List Nat)) : ∀ cur, dedupFrom cur l ≠ [] := by
  induction l with
  | nil => intro cur; rw [dedupFrom]; exact List.cons_ne_nil _ _
  | cons y rest ih =>
    intro cur
    rw [dedupFrom]
    split
    · exact ih cur
    · exact List.cons_ne_nil _ _

theorem dedupStems_ne_nil {l : List (List Nat)} (h : l ≠ []) :
    dedupStems l ≠ [] := by
  cases l with
  | nil => exact absurd rfl h
  | cons x rest => rw [dedupStems]; exact dedupFrom_ne_nil rest x

theorem sortNames_eq_nil_iff (l : List (List Nat)) : sortNames l = [] ↔ l = [] := by
  constructor
  · intro h
    have hp := (List.perm_insertionSort (fun a b => lexLe a b = true) l).length_eq
    rw [sortNames] at h
    rw [h] at hp
    exact List.length_eq_zero.mp hp.symm
  · rintro rfl
    rfl

/-! ### Claims C5 and C8: amended theorems -/

/-- **C5, amended.** For any nonempty set of compression variants of a stem
`s` (a sub-collection of `{s, s.7z, s.bz2}`, in that — sorted — order) that
appears *contiguously* in the sorted collected list (no other collected name
sorts strictly between two of the variants), the resolver's dedup output
contains exactly one name of stem `s`: the first variant present, preferring
plain over `.7z` over `.bz2`.  (Because dedup only compares *adjacent*
entries, the contiguity condition is necessary: see the counterexample.) -/
theorem dedup_keeps_preferred_adjacent_variants (s : List Nat)
    (pre block post : List (List Nat)) (hb : block ≠ [])
    (hsub : block.Sublist [s, var7z s, varBz2 s])
    (hstem : get_stem s = s)
    (hpre : ∀ x ∈ pre, get_stem x ≠ s)
    (hpost : ∀ x ∈ post, get_stem x ≠ s) :
    (dedupStems (pre ++ block ++ post)).filter (fun x => decide (get_stem x = s))
      = [block.head hb] ∧
    block.head hb = (if s ∈ block then s
                     else if var7z s ∈ block then var7z s
                     else varBz2 s) := by
  have hblock : ∀ x ∈ block, get_stem x = s := by
    intro x hx
    have hx3 := hsub.subset hx
    simp only [List.mem_cons, List.not_mem_nil, or_false] at hx3
    rcases hx3 with rfl | rfl | rfl
    · exact hstem
    · exact get_stem_var7z s
    · exact get_stem_varBz2 s
  refine ⟨?_, head_of_variant_block s block hb hsub⟩
  obtain ⟨b, bs, rfl⟩ : ∃ b bs, block = b :: bs := by
    cases block with
    | nil => exact absurd rfl hb
    | cons b bs => exact ⟨b, bs, rfl⟩
  rw [List.head_cons]
  have hbstem : get_stem b = s := hblock b (List.mem_cons_self _ _)
  have hbs : ∀ x ∈ bs, get_stem x = s :=
    fun x hx => hblock x (List.mem_cons_of_mem _ hx)
  cases pre with
  | nil =>
    rw [List.nil_append, List.cons_append, dedupStems]
    exact dedupFrom_filter_block s bs post b hbstem hbs hpost
  | cons p pre' =>
    rw [List.cons_append, List.cons_append, dedupStems]
    exact dedupFrom_filter_pre s pre' p b bs post
      (hpre p (List.mem_cons_self _ _))
      (fun x hx => hpre x (List.mem_cons_of_mem _ hx)) hbstem hbs hpost

/-- Witness for `dedup_keeps_preferred_adjacent_variants`: stem `"a"`,
variants `{"a", "a.7z"}` adjacent before the unrelated `"b"`. -/
theorem dedup_keeps_preferred_adjacent_variants_witness :
    get_stem [97] = [97] ∧
    ((dedupStems ([] ++ [[97], var7z [97]] ++ [[98]])).filter
        (fun x => decide (get_stem x = [97]))
      = [([[97], var7z [97]] : List (List Nat)).head (by decide)] ∧
     ([[97], var7z [97]] : List (List Nat)).head (by decide)
      = (if [97] ∈ [[97], var7z [97]] then [97]
         else if var7z [97] ∈ ([[97], var7z [97]] : List (List Nat)) then var7z [97]
         else varBz2 [97])) :=
  ⟨by decide,
   dedup_keeps_preferred_adjacent_variants [97] [] [[97], var7z [97]] [[98]]
     (by decide) (((List.nil_sublist _).cons₂ _).cons₂ _) (by decide)
     (by decide) (by decide)⟩

/-- **C8, amended.** `get_dump_files` fails with `NoDumpFilesFound` exactly
when no file was collected (in the prefix branch: no regular file in the
directory starts with the prefix; the exact-file branch always returns its
file); otherwise it returns the de-duplicated list together with an aggregate
size equal to the sum of the sizes of *all collected* files — including the
sizes of compression variants later removed by de-duplication, which is why
the aggregate can exceed the sum over the returned list (see the
counterexample). -/
theorem getDumpFiles_error_iff_and_size (fm : Option Nat) (pre : List Nat)
    (entries : List (List Nat × Nat)) :
    (getDumpFiles fm pre entries = none ↔
      fm = none ∧ entries.filter (fun en => pre.isPrefixOf en.1) = []) ∧
    (∀ l t, getDumpFiles fm pre entries = some (l, t) →
      l ≠ [] ∧
      (fm = none →
        t = ((entries.filter (fun en => pre.isPrefixOf en.1)).map Prod.snd).sum)) ∧
    (∀ sz, fm = some sz → getDumpFiles fm pre entries = some ([pre], sz)) := by
  cases fm with
  | some sz =>
    unfold getDumpFiles
    dsimp only
    rw [if_neg (List.cons_ne_nil _ _)]
    refine ⟨by simp, ?_, ?_⟩
    · rintro l t h
      simp only [Option.some.injEq, Prod.mk.injEq] at h
      obtain ⟨rfl, rfl⟩ := h
      exact ⟨List.cons_ne_nil _ _, fun h' => absurd h' (by simp)⟩
    · rintro sz' hsz
      simp only [Option.some.injEq] at hsz
      rw [hsz]
  | none =>
    unfold getDumpFiles
    dsimp only
    by_cases hempty : entries.filter (fun en => pre.isPrefixOf en.1) = []
    · rw [hempty]
      have h0 : dedupStems (sortNames (List.map Prod.fst
          ([] : List (List Nat × Nat)))) = [] := rfl
      rw [if_pos h0]
      refine ⟨by simp [hempty], ?_, by rintro sz ⟨⟩⟩
      rintro l t h
      exact absurd h (by simp)
    · have hne : dedupStems (sortNames
          ((entries.filter (fun en => pre.isPrefixOf en.1)).map Prod.fst)) ≠ [] := by
        apply dedupStems_ne_nil
        intro h0
        rw [sortNames_eq_nil_iff] at h0
        exact hempty (List.map_eq_nil_iff.mp h0)
      rw [if_neg hne]
      refine ⟨by simp [hempty], ?_, by rintro sz ⟨⟩⟩
      rintro l t h
      simp only [Option.some.injEq, Prod.mk.injEq] at h
      obtain ⟨rfl, rfl⟩ := h
      exact ⟨hne, fun _ => rfl⟩

/-- Witness for `getDumpFiles_error_iff_and_size`: directory
`{"a" (1 byte), "a.7z" (2 bytes)}`, prefix `"a"`. -/
theorem getDumpFiles_error_iff_and_size_witness :
    getDumpFiles none [97] [([97], 1), ([97, 46, 55, 122], 2)]
      = some ([[97]], 3) ∧ (([[97]] : List (List Nat)) ≠ [] ∧
      ((none : Option Nat) = none →
        (3 : Nat) = (([([97], 1), ([97, 46, 55, 122], 2)].filter
          (fun en => List.isPrefixOf [97] en.1)).map Prod.snd).sum)) :=
  ⟨by decide,
   (getDumpFiles_error_iff_and_size none [97]
     [([97], 1), ([97, 46, 55, 122], 2)]).2.1 [[97]] 3 (by decide)⟩

end Wdgrep
